import Mathlib

/-!
Verification development for the storage base layer of the repository
(`lib/storage/base`): the `Cleanup` fixture helper that is present in the
source, together with models of the `FileMap` (Simple and LRU) and
`FileStore` (Default, CAS) components described by the design document.
-/

namespace StorageBase

/-! ## Go slices

`Cleanup` in `fixtures.go` stores its functions in a Go slice and mutates it
with `append`.  Go's `append` either writes in place into the spare capacity
of the backing array or allocates a fresh backing array, so we model backing
arrays explicitly in a heap and slices as (array id, offset, length) headers.
-/

/-- A Go slice header: an array identifier into the heap, a start offset and a
length.  The capacity of the slice reaches to the end of its backing array. -/
structure GoSlice where
  arr : Nat
  off : Nat
  len : Nat
  deriving Repr, DecidableEq

/-- The heap of backing arrays; an array is identified by its index. -/
structure Heap (α : Type) where
  arrays : List (List α)
  deriving Repr, DecidableEq

/-- The backing array an identifier denotes (empty if the id is dangling). -/
def Heap.read (h : Heap α) (i : Nat) : List α := h.arrays.getD i []

/-- The elements a slice denotes: `len` elements starting at `off`. -/
def Heap.view (h : Heap α) (s : GoSlice) : List α :=
  ((h.read s.arr).drop s.off).take s.len

/-- Capacity of a slice: from its offset to the end of the backing array. -/
def Heap.capOf (h : Heap α) (s : GoSlice) : Nat := (h.read s.arr).length - s.off

/-- Overwrite the elements of `l` starting at position `i` with `xs`. -/
def writeAt (l : List α) (i : Nat) (xs : List α) : List α :=
  l.take i ++ xs ++ l.drop (i + xs.length)

/-- Replace the backing array `i` in the heap. -/
def Heap.setArr (h : Heap α) (i : Nat) (l : List α) : Heap α :=
  ⟨h.arrays.set i l⟩

/-- Go `append`: with spare capacity the elements are written in place after
the current length; otherwise a fresh backing array is allocated holding the
old view followed by the new elements.  Reading of the appended elements
happens before any write (`memmove` semantics). -/
def Heap.goAppend (h : Heap α) (s : GoSlice) (xs : List α) : Heap α × GoSlice :=
  if s.len + xs.length ≤ h.capOf s then
    (h.setArr s.arr (writeAt (h.read s.arr) (s.off + s.len) xs),
      ⟨s.arr, s.off, s.len + xs.length⟩)
  else
    (⟨h.arrays ++ [h.view s ++ xs]⟩, ⟨h.arrays.length, 0, s.len + xs.length⟩)

/-- A slice header is valid in a heap: its array exists and its extent fits. -/
def Heap.ValidSlice (h : Heap α) (s : GoSlice) : Prop :=
  s.arr < h.arrays.length ∧ s.off + s.len ≤ (h.read s.arr).length

/-! ## Cleanup (from `lib/storage/base/fixtures.go`)

The cleanup functions themselves are opaque to `Cleanup`, so we represent
them by abstract values of a type `α`; running a cleanup yields the trace of
invocations in order. -/

/-- The `Cleanup` struct: it holds the `funcs` slice. -/
structure Cleanup where
  funcs : GoSlice
  deriving Repr, DecidableEq

/-- The zero-value `Cleanup\x7b\x7d` together with its (empty) backing store. -/
def cleanupInit (α : Type) : Heap α × Cleanup := (⟨[[]]⟩, ⟨⟨0, 0, 0⟩⟩)

/-- `Add` appends the given functions: `c.funcs = append(c.funcs, f...)`. -/
def Cleanup.Add (h : Heap α) (c : Cleanup) (f : List α) : Heap α × Cleanup :=
  ((h.goAppend c.funcs f).1, ⟨(h.goAppend c.funcs f).2⟩)

/-- `AppendFront`: `c.funcs = append(c1.funcs, c.funcs...)`.  Only `c` is
reassigned; the slice header of `c1` is untouched. -/
def Cleanup.AppendFront (h : Heap α) (c c1 : Cleanup) : Heap α × Cleanup :=
  ((h.goAppend c1.funcs (h.view c.funcs)).1, ⟨(h.goAppend c1.funcs (h.view c.funcs)).2⟩)

/-- Invocation trace of calling each function of a list in order. -/
def runTrace : List α → List α
  | [] => []
  | f :: rest => f :: runTrace rest

/-- The private `run`: `for _, f := range c.funcs \x7b f() \x7d`. -/
def Cleanup.run (h : Heap α) (c : Cleanup) : List α := runTrace (h.view c.funcs)

/-- The exported `Run`, which calls `run`. -/
def Cleanup.Run (h : Heap α) (c : Cleanup) : List α := Cleanup.run h c

/-- Folding a sequence of `Add` calls over a cleanup. -/
def runAdds (fss : List (List α)) (p : Heap α × Cleanup) : Heap α × Cleanup :=
  fss.foldl (fun q f => Cleanup.Add q.1 q.2 f) p

/-! ## FileMap

The `FileMap` implementations themselves (`file_map.go`) are not part of the
source snapshot — only their test fixtures are — so they are modelled from
the design document. -/

/-- Error taxonomy of the storage layer. -/
inductive FErr where
  | NotFound
  | AlreadyExists
  | InUse
  | IntegrityMismatch
  deriving Repr, DecidableEq

/-- Modelled from the spec: the Simple `FileMap` (`NewSimpleFileMap`), whose
source is missing from the snapshot.  A mapping from name to `FileEntry`;
entries are identified by an abstract id so that identity is expressible.
Get returns the entry or NotFound; Add fails with AlreadyExists if the name
is present (test-and-set, not overwrite); Delete removes and returns the
entry or NotFound; Size is the number of entries. -/
structure SimpleFileMap where
  items : List (String × Nat)
  deriving Repr, DecidableEq

def SimpleFileMap.empty : SimpleFileMap := ⟨[]⟩

def SimpleFileMap.contains (m : SimpleFileMap) (name : String) : Bool :=
  m.items.any (fun p => p.1 == name)

def SimpleFileMap.get (m : SimpleFileMap) (name : String) : Except FErr Nat :=
  match m.items.find? (fun p => p.1 == name) with
  | some p => .ok p.2
  | none => .error .NotFound

def SimpleFileMap.add (m : SimpleFileMap) (name : String) (ent : Nat) :
    Except FErr SimpleFileMap :=
  if m.contains name then .error .AlreadyExists
  else .ok ⟨m.items ++ [(name, ent)]⟩

def SimpleFileMap.delete (m : SimpleFileMap) (name : String) :
    Except FErr (Nat × SimpleFileMap) :=
  match m.items.find? (fun p => p.1 == name) with
  | none => .error .NotFound
  | some p => .ok (p.2, ⟨m.items.filter (fun q => !(q.1 == name))⟩)

def SimpleFileMap.size (m : SimpleFileMap) : Nat := m.items.length

/-- Operations against a Simple file map. -/
inductive SOp where
  | get (name : String)
  | add (name : String) (ent : Nat)
  | delete (name : String)
  deriving Repr, DecidableEq

/-- One operation applied to a Simple file map; a failing operation leaves the
map unchanged. -/
def SimpleFileMap.step (m : SimpleFileMap) : SOp → SimpleFileMap
  | .get _ => m
  | .add n e =>
    match m.add n e with
    | .ok m' => m'
    | .error _ => m
  | .delete n =>
    match m.delete n with
    | .ok p => p.2
    | .error _ => m

def SimpleFileMap.runOps (m : SimpleFileMap) (ops : List SOp) : SimpleFileMap :=
  ops.foldl SimpleFileMap.step m

/-- One entry of the LRU map: the file entry id plus recency bookkeeping —
the last-access timestamp taken from the injected clock and an insertion
sequence number recording insertion order. -/
structure LRUItem where
  name : String
  entry : Nat
  lastAccess : Nat
  seq : Nat
  deriving Repr, DecidableEq

/-- Modelled from the spec: the LRU `FileMap` (`NewLRUFileMap(size, clock)`),
whose source is missing from the snapshot.  Same contract as Simple plus:
every successful Get or Add stamps the entry with the injected clock and the
map evicts the least-recently-used entry when an Add would exceed the
capacity fixed at construction; recency ties (equal timestamps) break by
insertion order.  `now` is the injected clock's current time and
`evictTrace` records the eviction-callback invocations in order. -/
structure LRUFileMap where
  capacity : Nat
  now : Nat
  nextSeq : Nat
  items : List LRUItem
  evictTrace : List (String × Nat)
  deriving Repr, DecidableEq

/-- Modelled from the spec: the constructor; a non-positive capacity is a
misconfiguration that must fail fast at construction time. -/
def LRUFileMap.new (cap : Nat) (t : Nat) : Option LRUFileMap :=
  if cap = 0 then none else some ⟨cap, t, 0, [], []⟩

def LRUFileMap.containsName (m : LRUFileMap) (name : String) : Bool :=
  m.items.any (fun e => e.name == name)

/-- Strict order on recency bookkeeping: earlier last access first, ties by
insertion sequence. -/
def lexLT (a b : LRUItem) : Bool :=
  decide (a.lastAccess < b.lastAccess) ||
    (decide (a.lastAccess = b.lastAccess) && decide (a.seq < b.seq))

/-- The corresponding non-strict order, stated as a proposition. -/
def LexLE (a b : LRUItem) : Prop :=
  a.lastAccess < b.lastAccess ∨ (a.lastAccess = b.lastAccess ∧ a.seq ≤ b.seq)

/-- Choose between a candidate item and the best item found so far. -/
def pickBetter (e : LRUItem) : Option LRUItem → LRUItem
  | none => e
  | some v => if lexLT v e then v else e

/-- Select the least-recently-used item: minimal last-access timestamp, ties
broken by least insertion sequence. -/
def pickLRU : List LRUItem → Option LRUItem
  | [] => none
  | e :: rest => some (pickBetter e (pickLRU rest))

/-- Evict the least-recently-used item: the eviction callback is recorded on
the trace and the item is removed from the map. -/
def LRUFileMap.evictOne (m : LRUFileMap) : LRUFileMap :=
  match pickLRU m.items with
  | none => m
  | some v =>
    { m with
        items := m.items.filter (fun e => !(e.name == v.name)),
        evictTrace := m.evictTrace ++ [(v.name, v.entry)] }

/-- Get: returns the entry or NotFound; a successful Get stamps the entry
with the current clock time (moving it to the most-recently-used position
among its timestamp class). -/
def LRUFileMap.get (m : LRUFileMap) (name : String) : Except FErr Nat × LRUFileMap :=
  match m.items.find? (fun e => e.name == name) with
  | none => (.error .NotFound, m)
  | some e =>
    (.ok e.entry,
      { m with
          items := m.items.map (fun x =>
            if x.name == name then { x with lastAccess := m.now } else x) })

/-- Insert a name that is not yet present: when the map is at capacity the
least-recently-used entry is evicted first, and then the new entry is
appended stamped with the current clock time and the next insertion
sequence number. -/
def LRUFileMap.insertFresh (m : LRUFileMap) (name : String) (ent : Nat) : LRUFileMap :=
  let m1 := if m.capacity ≤ m.items.length then m.evictOne else m
  { m1 with
      items := m1.items ++ [⟨name, ent, m1.now, m1.nextSeq⟩],
      nextSeq := m1.nextSeq + 1 }

/-- Add: AlreadyExists if the name is present, otherwise insert (evicting
first when at capacity). -/
def LRUFileMap.add (m : LRUFileMap) (name : String) (ent : Nat) :
    Except FErr LRUFileMap :=
  if m.containsName name then .error .AlreadyExists
  else .ok (m.insertFresh name ent)

/-- Delete: removes and returns the entry, or NotFound. -/
def LRUFileMap.delete (m : LRUFileMap) (name : String) :
    Except FErr (Nat × LRUFileMap) :=
  match m.items.find? (fun e => e.name == name) with
  | none => .error .NotFound
  | some e => .ok (e.entry, { m with items := m.items.filter (fun x => !(x.name == name)) })

def LRUFileMap.size (m : LRUFileMap) : Nat := m.items.length

/-- Operations against an LRU file map; `tick` is the external advancement of
the injected clock. -/
inductive LRUOp where
  | get (name : String)
  | add (name : String) (ent : Nat)
  | delete (name : String)
  | tick (d : Nat)
  deriving Repr, DecidableEq

/-- One operation applied to an LRU map; a failing operation leaves the map
unchanged. -/
def LRUFileMap.step (m : LRUFileMap) : LRUOp → LRUFileMap
  | .get n => (m.get n).2
  | .add n e =>
    match m.add n e with
    | .ok m' => m'
    | .error _ => m
  | .delete n =>
    match m.delete n with
    | .ok p => p.2
    | .error _ => m
  | .tick d => { m with now := m.now + d }

def LRUFileMap.runOps (m : LRUFileMap) (ops : List LRUOp) : LRUFileMap :=
  ops.foldl LRUFileMap.step m

/-- The operation sequence of the documented capacity-2 scenario, the clock
advancing between operations. -/
def lruScenarioOps : List LRUOp :=
  [.add "a" 1, .tick 1, .add "b" 2, .tick 1, .get "a", .tick 1, .add "c" 3]

/-- The capacity-2 LRU map freshly constructed at time 0. -/
def lruStart : LRUFileMap := ⟨2, 0, 0, [], []⟩

/-- A concrete capacity-2 LRU map at capacity, whose item of name b is the
least recently used. -/
def lruWitMap : LRUFileMap := ⟨2, 3, 2, [⟨"a", 1, 2, 0⟩, ⟨"b", 2, 1, 1⟩], []⟩

/-! ## FileStore

The store (`local_file_store.go` and friends) is likewise absent from the
snapshot and is modelled from the design document: a set of `FileState`
directories (identified by their directory name), a map of tracked entries,
and the backing files present in each state's directory. -/

/-- A tracked entry: name, current state, size and open-handle count. -/
structure StoreEntry where
  name : String
  state : String
  size : Nat
  openHandles : Nat
  deriving Repr, DecidableEq

/-- Modelled from the spec: the store composes the entry registry with the
backing files; `fsFiles` holds one record `(stateDir, name, allocated
length)` per backing file. -/
structure FileStore where
  entries : List StoreEntry
  fsFiles : List (String × String × Nat)
  deriving Repr, DecidableEq

def FileStore.empty : FileStore := ⟨[], []⟩

def FileStore.tracked (st : FileStore) (name : String) : Bool :=
  st.entries.any (fun e => e.name == name)

def FileStore.findEntry (st : FileStore) (name : String) : Option StoreEntry :=
  st.entries.find? (fun e => e.name == name)

/-- Whether the backing file `name` is present under the directory of state
`s`. -/
def FileStore.fsHas (st : FileStore) (s name : String) : Bool :=
  st.fsFiles.any (fun f => f.1 == s && f.2.1 == name)

/-- Allocated length of the backing file for `name` under state `s`. -/
def FileStore.allocOf (st : FileStore) (s name : String) : Option Nat :=
  (st.fsFiles.find? (fun f => f.1 == s && f.2.1 == name)).map (fun f => f.2.2)

/-- Modelled from the spec: `CreateFile(name, state, size)` resolves the
entry and allocates the backing file of exactly `size` bytes in the target
state's directory; AlreadyExists if the name is tracked in any state. -/
def FileStore.createFile (st : FileStore) (name s : String) (size : Nat) :
    Except FErr FileStore :=
  if st.tracked name then .error .AlreadyExists
  else .ok ⟨st.entries ++ [⟨name, s, size, 0⟩], st.fsFiles ++ [(s, name, size)]⟩

/-- Modelled from the spec: `MoveFile(name, destState)` relocates the backing
file from the entry's current state directory to the destination directory
and updates the recorded state; NotFound if untracked or the source file
vanished, AlreadyExists if the destination already holds a same-named
file. -/
def FileStore.moveFile (st : FileStore) (name dest : String) :
    Except FErr FileStore :=
  match st.findEntry name with
  | none => .error .NotFound
  | some e =>
    if !(st.fsHas e.state name) then .error .NotFound
    else if st.fsHas dest name then .error .AlreadyExists
    else
      .ok ⟨st.entries.map (fun x => if x.name == name then { x with state := dest } else x),
           st.fsFiles.filter (fun f => !(f.1 == e.state && f.2.1 == name)) ++
             [(dest, name, e.size)]⟩

/-- Modelled from the spec: `GetState(name)` reports the entry's current
state, or NotFound. -/
def FileStore.getState (st : FileStore) (name : String) : Except FErr String :=
  match st.findEntry name with
  | none => .error .NotFound
  | some e => .ok e.state

/-- Modelled from the spec: `DeleteFile(name)` requires handle count 0, then
removes the backing file from its state's directory and the entry from the
map; InUse while a handle is open, NotFound if untracked. -/
def FileStore.deleteFile (st : FileStore) (name : String) : Except FErr FileStore :=
  match st.findEntry name with
  | none => .error .NotFound
  | some e =>
    if 0 < e.openHandles then .error .InUse
    else
      .ok ⟨st.entries.filter (fun x => !(x.name == name)),
           st.fsFiles.filter (fun f => !(f.1 == e.state && f.2.1 == name))⟩

/-- Closing one open handle on `name`: the handle count is decremented. -/
def FileStore.closeFile (st : FileStore) (name : String) : FileStore :=
  { st with
      entries := st.entries.map (fun x =>
        if x.name == name then { x with openHandles := x.openHandles - 1 } else x) }

/-- Closing `k` open handles on `name` in sequence. -/
def FileStore.closeN (st : FileStore) (name : String) : Nat → FileStore
  | 0 => st
  | k + 1 => (st.closeFile name).closeN name k

/-- Modelled from the spec: the content hash naming scheme of the CAS store,
a fixed encoding of a content digest. -/
def hashContent (content : List Nat) : String :=
  "sha256:" ++ toString content

/-- Modelled from the spec: the CAS store's CreateFile validates that the
caller-supplied name equals the content hash of the supplied bytes, failing
with IntegrityMismatch otherwise, and then defers to the Default store's
CreateFile (which never overwrites an existing entry). -/
def FileStore.casCreateFile (st : FileStore) (name s : String) (content : List Nat) :
    Except FErr FileStore :=
  if name = hashContent content then st.createFile name s content.length
  else .error .IntegrityMismatch

/-! ### Lemmas about the slice model -/

theorem getD_append_left (l l' : List α) (i : Nat) (d : α) (h : i < l.length) :
    (l ++ l').getD i d = l.getD i d := by
  induction l generalizing i with
  | nil => simp at h
  | cons a t ih =>
    cases i with
    | zero => rfl
    | succ n => simpa [List.getD] using ih n (by simpa using h)

theorem getD_append_self (l l' : List α) (a d : α) :
    (l ++ a :: l').getD l.length d = a := by
  induction l with
  | nil => rfl
  | cons b t ih => simpa [List.getD] using ih

theorem getD_set_self (l : List α) (i : Nat) (a d : α) (h : i < l.length) :
    (l.set i a).getD i d = a := by
  induction l generalizing i with
  | nil => simp at h
  | cons b t ih =>
    cases i with
    | zero => rfl
    | succ n => simpa [List.getD] using ih n (by simpa using h)

theorem length_writeAt (l xs : List α) (i : Nat) (h : i + xs.length ≤ l.length) :
    (writeAt l i xs).length = l.length := by
  simp only [writeAt, List.length_append, List.length_take, List.length_drop]
  omega

theorem drop_writeAt (A : List α) (off len : Nat) (xs : List α)
    (h : off + len + xs.length ≤ A.length) :
    (writeAt A (off + len) xs).drop off =
      (A.drop off).take len ++ (xs ++ A.drop (off + len + xs.length)) := by
  have hlen : (A.take (off + len)).length = off + len := by
    rw [List.length_take]; omega
  unfold writeAt
  rw [List.append_assoc, List.drop_append_eq_append_drop, hlen]
  have h0 : off - (off + len) = 0 := by omega
  rw [h0, List.drop_zero, List.drop_take]
  have h1 : off + len - off = len := by omega
  rw [h1]

theorem view_writeAt (A : List α) (off len : Nat) (xs : List α)
    (h : off + len + xs.length ≤ A.length) :
    ((writeAt A (off + len) xs).drop off).take (len + xs.length) =
      (A.drop off).take len ++ xs := by
  rw [drop_writeAt A off len xs h]
  have h1 : ((A.drop off).take len).length = len := by
    rw [List.length_take, List.length_drop]; omega
  rw [List.take_append_eq_append_take, h1, List.take_take]
  have h2 : (len + xs.length) ⊓ len = len := by
    rw [Nat.min_eq_right]; omega
  have h3 : len + xs.length - len = xs.length := by omega
  rw [h2, h3, List.take_append_eq_append_take, List.take_of_length_le (le_refl xs.length),
    Nat.sub_self, List.take_zero, List.append_nil]

theorem view_writeAt_frozen (A : List α) (off len : Nat) (xs : List α)
    (h : off + len + xs.length ≤ A.length) :
    ((writeAt A (off + len) xs).drop off).take len = (A.drop off).take len := by
  rw [drop_writeAt A off len xs h]
  have h1 : ((A.drop off).take len).length = len := by
    rw [List.length_take, List.length_drop]; omega
  rw [List.take_append_eq_append_take, h1, List.take_take, Nat.min_self, Nat.sub_self,
    List.take_zero, List.append_nil]

theorem length_view (h : Heap α) (s : GoSlice) (hv : h.ValidSlice s) :
    (h.view s).length = s.len := by
  obtain ⟨_, hext⟩ := hv
  simp only [Heap.view, List.length_take, List.length_drop]
  omega

theorem read_setArr_self (h : Heap α) (i : Nat) (l : List α) (hi : i < h.arrays.length) :
    (h.setArr i l).read i = l :=
  getD_set_self h.arrays i l [] hi

/-- Appending to a valid slice yields a slice whose view is the old view
followed by the appended elements. -/
theorem view_goAppend (h : Heap α) (s : GoSlice) (xs : List α) (hv : h.ValidSlice s) :
    (h.goAppend s xs).1.view (h.goAppend s xs).2 = h.view s ++ xs := by
  obtain ⟨ha, hext⟩ := hv
  by_cases hcap : s.len + xs.length ≤ h.capOf s
  · have hfit : s.off + s.len + xs.length ≤ (h.read s.arr).length := by
      have := hcap
      simp only [Heap.capOf] at this
      omega
    simp only [Heap.goAppend, if_pos hcap, Heap.view]
    rw [read_setArr_self h s.arr _ ha]
    have := view_writeAt (h.read s.arr) s.off s.len xs hfit
    simpa [Heap.view] using this
  · simp only [Heap.goAppend, if_neg hcap, Heap.view, Heap.read]
    rw [getD_append_self]
    have hlv : (h.view s).length = s.len := length_view h s ⟨ha, hext⟩
    rw [List.drop_zero, List.take_of_length_le]
    simp [hlv]

/-- Appending through one slice header leaves the view of the original header
unchanged: in-place writes only touch positions past its length. -/
theorem view_goAppend_frozen (h : Heap α) (s : GoSlice) (xs : List α) (hv : h.ValidSlice s) :
    (h.goAppend s xs).1.view s = h.view s := by
  obtain ⟨ha, hext⟩ := hv
  by_cases hcap : s.len + xs.length ≤ h.capOf s
  · have hfit : s.off + s.len + xs.length ≤ (h.read s.arr).length := by
      have := hcap
      simp only [Heap.capOf] at this
      omega
    simp only [Heap.goAppend, if_pos hcap, Heap.view]
    rw [read_setArr_self h s.arr _ ha]
    exact view_writeAt_frozen (h.read s.arr) s.off s.len xs hfit
  · simp only [Heap.goAppend, if_neg hcap, Heap.view, Heap.read]
    rw [getD_append_left _ _ _ _ ha]

/-- Appending to a valid slice yields a valid slice. -/
theorem valid_goAppend (h : Heap α) (s : GoSlice) (xs : List α) (hv : h.ValidSlice s) :
    (h.goAppend s xs).1.ValidSlice (h.goAppend s xs).2 := by
  obtain ⟨ha, hext⟩ := hv
  by_cases hcap : s.len + xs.length ≤ h.capOf s
  · have hfit : s.off + s.len + xs.length ≤ (h.read s.arr).length := by
      have := hcap
      simp only [Heap.capOf] at this
      omega
    simp only [Heap.goAppend, if_pos hcap, Heap.ValidSlice]
    constructor
    · simpa [Heap.setArr] using ha
    · rw [read_setArr_self h s.arr _ ha, length_writeAt _ _ _ (by omega)]
      omega
  · simp only [Heap.goAppend, if_neg hcap, Heap.ValidSlice, Heap.read]
    constructor
    · simp
    · rw [getD_append_self]
      have hlv : (h.view s).length = s.len := length_view h s ⟨ha, hext⟩
      simp [hlv]

theorem runTrace_eq (l : List α) : runTrace l = l := by
  induction l with
  | nil => rfl
  | cons a t ih => simp [runTrace, ih]

theorem cleanupInit_valid (α : Type) :
    (cleanupInit α).1.ValidSlice (cleanupInit α).2.funcs := by
  constructor
  · simp [cleanupInit]
  · simp [cleanupInit, Heap.read]

theorem runAdds_view (fss : List (List α)) (h : Heap α) (c : Cleanup)
    (hv : h.ValidSlice c.funcs) :
    (runAdds fss (h, c)).1.ValidSlice (runAdds fss (h, c)).2.funcs ∧
      (runAdds fss (h, c)).1.view (runAdds fss (h, c)).2.funcs =
        h.view c.funcs ++ fss.flatten := by
  induction fss generalizing h c with
  | nil => simpa [runAdds] using hv
  | cons f t ih =>
    have hv' : (Cleanup.Add h c f).1.ValidSlice (Cleanup.Add h c f).2.funcs :=
      valid_goAppend h c.funcs f hv
    have hview : (Cleanup.Add h c f).1.view (Cleanup.Add h c f).2.funcs =
        h.view c.funcs ++ f := view_goAppend h c.funcs f hv
    have hstep : runAdds (f :: t) (h, c) =
        runAdds t ((Cleanup.Add h c f).1, (Cleanup.Add h c f).2) := rfl
    rw [hstep]
    obtain ⟨iv, ie⟩ := ih (Cleanup.Add h c f).1 (Cleanup.Add h c f).2 hv'
    refine ⟨iv, ?_⟩
    rw [ie, hview, List.flatten_cons, List.append_assoc]

/-- C9: `Run` (via the internal `run`) invokes each registered function
exactly once, in the order the functions were added via `Add` — the
invocation trace is exactly the function list, a sequence of `Add` calls
starting from the zero-value `Cleanup` produces the traces concatenated in
first-added-first order, and running with no registered functions does
nothing. -/
theorem cleanup_run_in_add_order :
    (∀ (α : Type) (h : Heap α) (c : Cleanup), Cleanup.Run h c = Cleanup.run h c) ∧
    (∀ (α : Type) (h : Heap α) (c : Cleanup), Cleanup.Run h c = h.view c.funcs) ∧
    (∀ (α : Type), Cleanup.Run (cleanupInit α).1 (cleanupInit α).2 = []) ∧
    (∀ (α : Type) (fss : List (List α)),
      Cleanup.Run (runAdds fss (cleanupInit α)).1 (runAdds fss (cleanupInit α)).2 =
        fss.flatten) := by
  have hrun : ∀ (α : Type) (h : Heap α) (c : Cleanup), Cleanup.Run h c = h.view c.funcs := by
    intro α h c
    simp [Cleanup.Run, Cleanup.run, runTrace_eq]
  refine ⟨fun α h c => rfl, hrun, ?_, ?_⟩
  · intro α
    rw [hrun]
    simp [cleanupInit, Heap.view, Heap.read]
  · intro α fss
    rw [hrun]
    have := (runAdds_view fss (cleanupInit α).1 (cleanupInit α).2 (cleanupInit_valid α)).2
    rw [this]
    simp [cleanupInit, Heap.view, Heap.read]

/-- C10: after `c.AppendFront(c1)` the function list of `c` is the functions
of `c1` (in order) followed by the functions previously registered on `c`,
and the observable function list of `c1` is unchanged — even when the append
writes in place into spare capacity of `c1`'s backing array, since it only
writes past `c1`'s length. -/
theorem cleanup_appendFront_order (α : Type) (h : Heap α) (c c1 : Cleanup)
    (hc1 : h.ValidSlice c1.funcs) :
    (Cleanup.AppendFront h c c1).1.view (Cleanup.AppendFront h c c1).2.funcs =
        h.view c1.funcs ++ h.view c.funcs ∧
      (Cleanup.AppendFront h c c1).1.view c1.funcs = h.view c1.funcs :=
  ⟨view_goAppend h c1.funcs (h.view c.funcs) hc1,
    view_goAppend_frozen h c1.funcs (h.view c.funcs) hc1⟩

/-- Witness for C10 at a concrete heap: `c1 = [1, 2]` with spare capacity in
its backing array (so the in-place branch of `append` runs) and `c = [5]`. -/
theorem cleanup_appendFront_order_witness :
    (Cleanup.AppendFront (⟨[[1, 2, 0, 0], [5]]⟩ : Heap Nat) ⟨⟨1, 0, 1⟩⟩ ⟨⟨0, 0, 2⟩⟩).1.view
        (Cleanup.AppendFront (⟨[[1, 2, 0, 0], [5]]⟩ : Heap Nat) ⟨⟨1, 0, 1⟩⟩ ⟨⟨0, 0, 2⟩⟩).2.funcs =
      [1, 2, 5] ∧
    (Cleanup.AppendFront (⟨[[1, 2, 0, 0], [5]]⟩ : Heap Nat) ⟨⟨1, 0, 1⟩⟩ ⟨⟨0, 0, 2⟩⟩).1.view
        (⟨0, 0, 2⟩ : GoSlice) = [1, 2] := by
  have h := cleanup_appendFront_order Nat ⟨[[1, 2, 0, 0], [5]]⟩ ⟨⟨1, 0, 1⟩⟩ ⟨⟨0, 0, 2⟩⟩
    (by constructor <;> decide)
  exact ⟨h.1.trans (by decide), h.2.trans (by decide)⟩

/-! ### Lemmas about the LRU selection order -/

theorem lexLE_refl (a : LRUItem) : LexLE a a := Or.inr ⟨rfl, le_refl _⟩

theorem lexLE_trans {a b c : LRUItem} (h1 : LexLE a b) (h2 : LexLE b c) : LexLE a c := by
  rcases h1 with h1 | ⟨e1, s1⟩ <;> rcases h2 with h2 | ⟨e2, s2⟩
  · exact Or.inl (by omega)
  · exact Or.inl (by omega)
  · exact Or.inl (by omega)
  · exact Or.inr ⟨by omega, by omega⟩

theorem lexLE_of_lexLT {a b : LRUItem} (h : lexLT a b = true) : LexLE a b := by
  simp only [lexLT, Bool.or_eq_true, Bool.and_eq_true, decide_eq_true_eq] at h
  rcases h with h | ⟨he, hs⟩
  · exact Or.inl h
  · exact Or.inr ⟨he, Nat.le_of_lt hs⟩

theorem lexLE_of_not_lexLT {v e : LRUItem} (h : lexLT v e = false) : LexLE e v := by
  simp only [lexLT, Bool.or_eq_false_iff, Bool.and_eq_false_iff, decide_eq_false_iff_not,
    decide_eq_true_eq] at h
  obtain ⟨h1, h2⟩ := h
  rcases Nat.lt_or_ge e.lastAccess v.lastAccess with hlt | hge
  · exact Or.inl hlt
  · have heq : e.lastAccess = v.lastAccess := by omega
    rcases h2 with h2 | h2
    · exact absurd heq.symm h2
    · exact Or.inr ⟨heq, by omega⟩

theorem pickLRU_cons (e : LRUItem) (rest : List LRUItem) :
    pickLRU (e :: rest) = some (pickBetter e (pickLRU rest)) := rfl

theorem pickLRU_mem : ∀ {l : List LRUItem} {v : LRUItem}, pickLRU l = some v → v ∈ l := by
  intro l
  induction l with
  | nil => intro v h; simp [pickLRU] at h
  | cons e rest ih =>
    intro v h
    rw [pickLRU_cons] at h
    have hv : v = pickBetter e (pickLRU rest) := (Option.some.inj h).symm
    cases hr : pickLRU rest with
    | none => rw [hr] at hv; simp [pickBetter] at hv; subst hv; exact List.mem_cons_self _ _
    | some w =>
      rw [hr] at hv
      simp only [pickBetter] at hv
      by_cases hlt : lexLT w e = true
      · rw [if_pos hlt] at hv; subst hv; exact List.mem_cons_of_mem _ (ih hr)
      · rw [if_neg hlt] at hv; subst hv; exact List.mem_cons_self _ _

theorem pickLRU_min :
    ∀ {l : List LRUItem} {v : LRUItem}, pickLRU l = some v → ∀ x ∈ l, LexLE v x := by
  intro l
  induction l with
  | nil => intro v h; simp [pickLRU] at h
  | cons e rest ih =>
    intro v h x hx
    rw [pickLRU_cons] at h
    have hv : v = pickBetter e (pickLRU rest) := (Option.some.inj h).symm
    cases hr : pickLRU rest with
    | none =>
      rw [hr] at hv
      simp only [pickBetter] at hv
      subst hv
      have hrest : rest = [] := by
        cases rest with
        | nil => rfl
        | cons a t => rw [pickLRU_cons] at hr; cases hr
      subst hrest
      rcases List.mem_singleton.mp hx with rfl
      exact lexLE_refl x
    | some w =>
      rw [hr] at hv
      simp only [pickBetter] at hv
      by_cases hlt : lexLT w e = true
      · rw [if_pos hlt] at hv
        subst hv
        rcases List.mem_cons.mp hx with rfl | hx'
        · exact lexLE_of_lexLT hlt
        · exact ih hr x hx'
      · rw [if_neg hlt] at hv
        subst hv
        rcases List.mem_cons.mp hx with rfl | hx'
        · exact lexLE_refl x
        · exact lexLE_trans (lexLE_of_not_lexLT (Bool.eq_false_iff.mpr hlt)) (ih hr x hx')

theorem length_filter_lt {β : Type} (p : β → Bool) (l : List β) (x : β)
    (hx : x ∈ l) (hpx : p x = false) : (l.filter p).length < l.length := by
  induction l with
  | nil => cases hx
  | cons a t ih =>
    rcases List.mem_cons.mp hx with rfl | hmem
    · rw [List.filter_cons, if_neg (by simp [hpx])]
      have := List.length_filter_le p t
      simp only [List.length_cons]
      omega
    · rw [List.filter_cons]
      by_cases hpa : p a = true
      · rw [if_pos (by simp [hpa])]
        have := ih hmem
        simp only [List.length_cons]
        omega
      · rw [if_neg (by simpa using hpa)]
        have := ih hmem
        simp only [List.length_cons]
        omega

/-! ### LRU map invariants -/

theorem evictOne_of_pick (m : LRUFileMap) (v : LRUItem) (h : pickLRU m.items = some v) :
    m.evictOne = { m with
        items := m.items.filter (fun e => !(e.name == v.name)),
        evictTrace := m.evictTrace ++ [(v.name, v.entry)] } := by
  simp [LRUFileMap.evictOne, h]

theorem evictOne_capacity (m : LRUFileMap) : m.evictOne.capacity = m.capacity := by
  cases h : pickLRU m.items <;> simp [LRUFileMap.evictOne, h]

theorem pickLRU_of_ne_nil (l : List LRUItem) (h : l ≠ []) : ∃ v, pickLRU l = some v := by
  cases l with
  | nil => exact absurd rfl h
  | cons e rest => exact ⟨_, pickLRU_cons e rest⟩

theorem insertFresh_capacity (m : LRUFileMap) (name : String) (ent : Nat) :
    (m.insertFresh name ent).capacity = m.capacity := by
  by_cases hc : m.capacity ≤ m.items.length
  · simp [LRUFileMap.insertFresh, hc, evictOne_capacity]
  · simp [LRUFileMap.insertFresh, hc]

theorem insertFresh_length_le (m : LRUFileMap) (name : String) (ent : Nat)
    (h0 : 0 < m.capacity) (hlen : m.items.length ≤ m.capacity) :
    (m.insertFresh name ent).items.length ≤ m.capacity := by
  by_cases hc : m.capacity ≤ m.items.length
  · have hne : m.items ≠ [] := by
      intro he
      rw [he] at hc
      simp only [List.length_nil] at hc
      omega
    obtain ⟨v, hv⟩ := pickLRU_of_ne_nil m.items hne
    have hflt : (m.items.filter (fun e => !(e.name == v.name))).length < m.items.length :=
      length_filter_lt _ _ v (pickLRU_mem hv) (by simp)
    simp only [LRUFileMap.insertFresh, if_pos hc, evictOne_of_pick m v hv,
      List.length_append, List.length_cons, List.length_nil]
    omega
  · simp only [LRUFileMap.insertFresh, if_neg hc, List.length_append, List.length_cons,
      List.length_nil]
    omega

theorem step_preserves (m : LRUFileMap) (op : LRUOp)
    (h0 : 0 < m.capacity) (hlen : m.items.length ≤ m.capacity) :
    (m.step op).capacity = m.capacity ∧ (m.step op).items.length ≤ m.capacity := by
  cases op with
  | get n =>
    cases hf : m.items.find? (fun e => e.name == n) with
    | none => simp [LRUFileMap.step, LRUFileMap.get, hf, hlen]
    | some e => simp [LRUFileMap.step, LRUFileMap.get, hf, hlen]
  | add n e =>
    by_cases hc : m.containsName n
    · simp [LRUFileMap.step, LRUFileMap.add, hc, hlen]
    · simp only [LRUFileMap.step, LRUFileMap.add, hc, if_neg, Bool.false_eq_true,
        not_false_eq_true]
      exact ⟨insertFresh_capacity m n e, insertFresh_length_le m n e h0 hlen⟩
  | delete n =>
    cases hf : m.items.find? (fun e => e.name == n) with
    | none => simp [LRUFileMap.step, LRUFileMap.delete, hf, hlen]
    | some e =>
      simp only [LRUFileMap.step, LRUFileMap.delete, hf]
      exact ⟨by simp, le_trans (List.length_filter_le _ _) hlen⟩
  | tick d => exact ⟨rfl, hlen⟩

theorem runOps_preserves (ops : List LRUOp) (m : LRUFileMap)
    (h0 : 0 < m.capacity) (hlen : m.items.length ≤ m.capacity) :
    (m.runOps ops).capacity = m.capacity ∧ (m.runOps ops).items.length ≤ m.capacity := by
  induction ops generalizing m with
  | nil => exact ⟨rfl, hlen⟩
  | cons op t ih =>
    obtain ⟨hcap, hle⟩ := step_preserves m op h0 hlen
    have hrw : m.runOps (op :: t) = (m.step op).runOps t := rfl
    obtain ⟨ic, il⟩ := ih (m.step op) (by rw [hcap]; exact h0) (by rw [hcap]; exact hle)
    rw [hrw]
    exact ⟨ic.trans hcap, by rw [hcap] at il; exact il⟩

/-- C1: every LRU map produced by the constructor keeps its number of active
entries at or below the configured capacity after any sequence of
operations; and an Add of a fresh name to a map at (or beyond) capacity
first evicts exactly the least-recently-used entry — minimal by last-access
timestamp, ties (equal timestamps) broken by least insertion sequence — the
eviction-callback record being appended and the slot freed before the new
entry is inserted. -/
theorem lru_capacity_and_eviction :
    (∀ (cap t : Nat) (m0 : LRUFileMap) (ops : List LRUOp),
        LRUFileMap.new cap t = some m0 → (m0.runOps ops).size ≤ cap) ∧
    (∀ (m : LRUFileMap) (name : String) (ent : Nat),
        0 < m.capacity → m.capacity ≤ m.items.length → m.containsName name = false →
        ∃ v, pickLRU m.items = some v ∧ v ∈ m.items ∧ (∀ x ∈ m.items, LexLE v x) ∧
          m.add name ent = .ok (m.insertFresh name ent) ∧
          (m.insertFresh name ent).evictTrace = m.evictTrace ++ [(v.name, v.entry)] ∧
          (m.insertFresh name ent).items =
            m.items.filter (fun e => !(e.name == v.name)) ++
              [⟨name, ent, m.now, m.nextSeq⟩]) := by
  constructor
  · intro cap t m0 ops h
    by_cases hcap0 : cap = 0
    · simp [LRUFileMap.new, hcap0] at h
    · have h' : some (⟨cap, t, 0, [], []⟩ : LRUFileMap) = some m0 := by
        simpa [LRUFileMap.new, hcap0] using h
      have hm : m0 = ⟨cap, t, 0, [], []⟩ := (Option.some.inj h').symm
      subst hm
      have h0 : (0 : Nat) < cap := Nat.pos_of_ne_zero hcap0
      obtain ⟨hc, hl⟩ := runOps_preserves ops ⟨cap, t, 0, [], []⟩ h0 (by simp)
      exact hl
  · intro m name ent h0 hc hfresh
    have hne : m.items ≠ [] := by
      intro he
      rw [he] at hc
      simp only [List.length_nil] at hc
      omega
    obtain ⟨v, hv⟩ := pickLRU_of_ne_nil m.items hne
    refine ⟨v, hv, pickLRU_mem hv, pickLRU_min hv, ?_, ?_, ?_⟩
    · simp [LRUFileMap.add, hfresh]
    · simp [LRUFileMap.insertFresh, hc, evictOne_of_pick m v hv]
    · simp [LRUFileMap.insertFresh, hc, evictOne_of_pick m v hv]

/-- Witness for C1: the capacity-2 scenario run stays within capacity, and a
concrete at-capacity map evicts on a fresh Add. -/
theorem lru_capacity_and_eviction_witness :
    ((lruStart.runOps lruScenarioOps).size ≤ 2) ∧
    (∃ v, pickLRU lruWitMap.items = some v ∧ v ∈ lruWitMap.items ∧
      (∀ x ∈ lruWitMap.items, LexLE v x) ∧
      lruWitMap.add "c" 3 = .ok (lruWitMap.insertFresh "c" 3) ∧
      (lruWitMap.insertFresh "c" 3).evictTrace =
        lruWitMap.evictTrace ++ [(v.name, v.entry)] ∧
      (lruWitMap.insertFresh "c" 3).items =
        lruWitMap.items.filter (fun e => !(e.name == v.name)) ++
          [⟨"c", 3, lruWitMap.now, lruWitMap.nextSeq⟩]) :=
  ⟨lru_capacity_and_eviction.1 2 0 lruStart lruScenarioOps rfl,
   lru_capacity_and_eviction.2 lruWitMap "c" 3 (by decide) (by decide) (by decide)⟩

/-! ### Get protection and the capacity-2 scenario -/

theorem get_containsName (m : LRUFileMap) (x n : String) :
    ((m.get x).2).containsName n = m.containsName n := by
  cases hf : m.items.find? (fun e => e.name == x) with
  | none => simp [LRUFileMap.get, hf]
  | some e =>
    simp only [LRUFileMap.get, hf, LRUFileMap.containsName, List.any_map]
    congr 1
    funext e'
    by_cases hx : (e'.name == x) = true <;> simp [Function.comp, hx]

theorem get_items (m : LRUFileMap) (x : String) (e0 : LRUItem)
    (hf : m.items.find? (fun e => e.name == x) = some e0) :
    ((m.get x).2).items =
      m.items.map (fun e => if e.name == x then { e with lastAccess := m.now } else e) := by
  simp [LRUFileMap.get, hf]

/-- C2: a successful Get on an existing entry, performed when the clock is
strictly ahead of every other entry's last access, protects that entry from
the eviction triggered by the next fresh Add (some other entry is older and
is picked instead); and in the documented capacity-2 scenario — insert a,
insert b, access a, insert c, the injected clock advancing between
operations — exactly b is evicted while a and c remain. -/
theorem lru_get_protects_and_scenario :
    (∀ (m : LRUFileMap) (x name : String) (ent : Nat),
        m.containsName x = true → m.containsName name = false →
        (∀ e ∈ m.items, e.name ≠ x → e.lastAccess < m.now) →
        (∃ e ∈ m.items, e.name ≠ x) →
        ((m.get x).2).add name ent = .ok (((m.get x).2).insertFresh name ent) ∧
          (((m.get x).2).insertFresh name ent).containsName x = true) ∧
    (∀ m0 : LRUFileMap, LRUFileMap.new 2 0 = some m0 →
        (m0.runOps lruScenarioOps).containsName "a" = true ∧
        (m0.runOps lruScenarioOps).containsName "c" = true ∧
        (m0.runOps lruScenarioOps).containsName "b" = false ∧
        (m0.runOps lruScenarioOps).evictTrace = [("b", 2)] ∧
        (m0.runOps lruScenarioOps).size = 2) := by
  constructor
  · intro m x name ent hx hfresh hrecent hother
    have hfresh1 : ((m.get x).2).containsName name = false := by
      rw [get_containsName]; exact hfresh
    refine ⟨by simp [LRUFileMap.add, hfresh1], ?_⟩
    have hsome : (m.items.find? (fun e => e.name == x)).isSome = true := by
      rw [List.find?_isSome]
      simpa [LRUFileMap.containsName, List.any_eq_true] using hx
    obtain ⟨e0, hf⟩ := Option.isSome_iff_exists.mp hsome
    have he0mem : e0 ∈ m.items := List.mem_of_find?_eq_some hf
    have he0x : (e0.name == x) = true := List.find?_some (p := fun e : LRUItem => e.name == x) hf
    have hitems := get_items m x e0 hf
    -- the freshly stamped copy of the accessed entry
    have hupd : ({ e0 with lastAccess := m.now } : LRUItem) ∈ ((m.get x).2).items := by
      rw [hitems]
      exact List.mem_map.mpr ⟨e0, he0mem, by rw [if_pos he0x]⟩
    have hupd_name : ({ e0 with lastAccess := m.now } : LRUItem).name = x := by
      simpa using (beq_iff_eq.mp he0x)
    have hcontains2 : ∀ l : List LRUItem,
        (∃ y ∈ l, y.name = x) → (l ++ [(⟨name, ent, ((m.get x).2).now,
          ((m.get x).2).nextSeq⟩ : LRUItem)]).any (fun e => e.name == x) = true := by
      intro l hl
      obtain ⟨y, hy, hyx⟩ := hl
      rw [List.any_append, Bool.or_eq_true]
      exact Or.inl (List.any_eq_true.mpr ⟨y, hy, beq_iff_eq.mpr hyx⟩)
    by_cases hcap : ((m.get x).2).capacity ≤ ((m.get x).2).items.length
    · -- at capacity: an eviction happens, but it cannot pick the accessed entry
      have hne : ((m.get x).2).items ≠ [] := by
        intro he
        rw [he] at hupd
        cases hupd
      obtain ⟨v, hv⟩ := pickLRU_of_ne_nil _ hne
      -- some other entry is strictly older than the accessed one
      obtain ⟨w, hw, hwx⟩ := hother
      have hwkeep : w ∈ ((m.get x).2).items := by
        rw [hitems]
        refine List.mem_map.mpr ⟨w, hw, ?_⟩
        rw [if_neg (by simp [beq_eq_false_iff_ne.mpr hwx])]
      have hwold : w.lastAccess < m.now := hrecent w hw hwx
      have hvle : LexLE v w := pickLRU_min hv w hwkeep
      have hvold : v.lastAccess < m.now := by
        rcases hvle with h1 | ⟨h1, _⟩
        · omega
        · omega
      have hvx : v.name ≠ x := by
        have hvmem := pickLRU_mem hv
        rw [hitems] at hvmem
        obtain ⟨u, hu, huv⟩ := List.mem_map.mp hvmem
        by_cases hux : (u.name == x) = true
        · rw [if_pos hux] at huv
          rw [← huv] at hvold
          simp at hvold
        · rw [if_neg hux] at huv
          rw [← huv]
          exact beq_eq_false_iff_ne.mp (Bool.eq_false_iff.mpr hux)
      simp only [LRUFileMap.insertFresh, if_pos hcap, LRUFileMap.containsName,
        evictOne_of_pick _ v hv]
      apply hcontains2
      refine ⟨{ e0 with lastAccess := m.now }, ?_, hupd_name⟩
      refine List.mem_filter.mpr ⟨hupd, ?_⟩
      have he0n : e0.name = x := beq_iff_eq.mp he0x
      simp only [Bool.not_eq_eq_eq_not, Bool.not_true, beq_eq_false_iff_ne]
      intro hh
      exact hvx (hh.symm.trans he0n)
    · -- below capacity: nothing is evicted
      simp only [LRUFileMap.insertFresh, if_neg hcap, LRUFileMap.containsName]
      exact hcontains2 _ ⟨{ e0 with lastAccess := m.now }, hupd, hupd_name⟩
  · intro m0 h
    have h' : some (⟨2, 0, 0, [], []⟩ : LRUFileMap) = some m0 := by
      simpa [LRUFileMap.new] using h
    have hm : m0 = ⟨2, 0, 0, [], []⟩ := (Option.some.inj h').symm
    subst hm
    refine ⟨by decide, by decide, by decide, by decide, by decide⟩

/-- Witness for C2: the protection statement applied to a concrete map whose
entry a was just accessed, and the scenario at the freshly constructed
map. -/
theorem lru_get_protects_and_scenario_witness :
    (((lruWitMap.get "a").2).add "c" 3 =
        .ok (((lruWitMap.get "a").2).insertFresh "c" 3) ∧
      (((lruWitMap.get "a").2).insertFresh "c" 3).containsName "a" = true) ∧
    ((lruStart.runOps lruScenarioOps).containsName "a" = true ∧
      (lruStart.runOps lruScenarioOps).containsName "c" = true ∧
      (lruStart.runOps lruScenarioOps).containsName "b" = false ∧
      (lruStart.runOps lruScenarioOps).evictTrace = [("b", 2)] ∧
      (lruStart.runOps lruScenarioOps).size = 2) :=
  ⟨lru_get_protects_and_scenario.1 lruWitMap "a" "c" 3 (by decide) (by decide)
      (by decide) (by decide),
   lru_get_protects_and_scenario.2 lruStart rfl⟩

/-! ### Add-then-Get identity and uniqueness of names -/

theorem find?_append_none {β : Type} (p : β → Bool) (l l' : List β)
    (h : l.find? p = none) : (l ++ l').find? p = l'.find? p := by
  rw [List.find?_append, h, Option.none_or]

theorem find?_eq_none_of_any_false {β : Type} (p : β → Bool) (l : List β)
    (h : l.any p = false) : l.find? p = none :=
  List.find?_eq_none.mpr (List.any_eq_false.mp h)

theorem find?_filter_none {β : Type} (p q : β → Bool) (l : List β)
    (h : l.find? p = none) : (l.filter q).find? p = none := by
  rw [List.find?_eq_none] at h ⊢
  intro x hx
  exact h x (List.mem_filter.mp hx).1

/-- C4: on either file map, a successful Add of an entry followed
immediately by a Get of the same name returns the very entry that was
added (the entry id is preserved, modelling instance identity). -/
theorem add_then_get_same :
    (∀ (m m' : SimpleFileMap) (name : String) (ent : Nat),
        m.add name ent = .ok m' → m'.get name = .ok ent) ∧
    (∀ (lm lm' : LRUFileMap) (name : String) (ent : Nat),
        lm.add name ent = .ok lm' → (lm'.get name).1 = .ok ent) := by
  constructor
  · intro m m' name ent h
    by_cases hc : m.contains name
    · simp [SimpleFileMap.add, hc] at h
    · simp only [SimpleFileMap.add, hc, if_neg, Bool.false_eq_true, not_false_eq_true,
        Except.ok.injEq] at h
      have hnone : m.items.find? (fun p => p.1 == name) = none :=
        find?_eq_none_of_any_false _ _ (Bool.eq_false_iff.mpr hc)
      rw [← h]
      simp [SimpleFileMap.get, find?_append_none _ _ _ hnone]
  · intro lm lm' name ent h
    by_cases hc : lm.containsName name
    · simp [LRUFileMap.add, hc] at h
    · simp only [LRUFileMap.add, hc, if_neg, Bool.false_eq_true, not_false_eq_true,
        Except.ok.injEq] at h
      have hnone : lm.items.find? (fun e => e.name == name) = none :=
        find?_eq_none_of_any_false _ _ (Bool.eq_false_iff.mpr hc)
      have hm1 : ((if lm.capacity ≤ lm.items.length then lm.evictOne else lm)).items.find?
          (fun e => e.name == name) = none := by
        by_cases hcap : lm.capacity ≤ lm.items.length
        · rw [if_pos hcap]
          cases hp : pickLRU lm.items with
          | none => simp [LRUFileMap.evictOne, hp, hnone]
          | some v =>
            rw [evictOne_of_pick _ v hp]
            exact find?_filter_none _ _ _ hnone
        · rw [if_neg hcap]
          exact hnone
      rw [← h]
      simp only [LRUFileMap.get, LRUFileMap.insertFresh]
      rw [find?_append_none _ _ _ hm1]
      simp [List.find?]

theorem add_then_get_same_witness :
    ((⟨[("x", 7)]⟩ : SimpleFileMap).get "x" = .ok 7) ∧
      (((lruStart.insertFresh "a" 1).get "a").1 = .ok 1) :=
  ⟨add_then_get_same.1 SimpleFileMap.empty ⟨[("x", 7)]⟩ "x" 7 rfl,
   add_then_get_same.2 lruStart (lruStart.insertFresh "a" 1) "a" 1 rfl⟩

theorem nodup_append_singleton {β : Type} (l : List β) (a : β)
    (h : l.Nodup) (ha : a ∉ l) : (l ++ [a]).Nodup := by
  rw [List.nodup_append]
  exact ⟨h, List.nodup_singleton a, by simpa [List.disjoint_singleton] using ha⟩

theorem not_mem_fst_of_contains_false (m : SimpleFileMap) (n : String)
    (h : m.contains n = false) : n ∉ m.items.map Prod.fst := by
  intro hmem
  obtain ⟨p, hp, hpn⟩ := List.mem_map.mp hmem
  exact List.any_eq_false.mp h p hp (beq_iff_eq.mpr hpn)

theorem not_mem_name_of_containsName_false (m : LRUFileMap) (n : String)
    (h : m.containsName n = false) : n ∉ m.items.map LRUItem.name := by
  intro hmem
  obtain ⟨e, he, hen⟩ := List.mem_map.mp hmem
  exact List.any_eq_false.mp h e he (beq_iff_eq.mpr hen)

theorem simple_step_nodup (m : SimpleFileMap) (op : SOp)
    (h : (m.items.map Prod.fst).Nodup) : ((m.step op).items.map Prod.fst).Nodup := by
  cases op with
  | get n => exact h
  | add n e =>
    by_cases hc : m.contains n
    · simpa [SimpleFileMap.step, SimpleFileMap.add, hc] using h
    · simp only [SimpleFileMap.step, SimpleFileMap.add, hc, if_neg, Bool.false_eq_true,
        not_false_eq_true]
      rw [List.map_append]
      exact nodup_append_singleton _ _ h
        (not_mem_fst_of_contains_false m n (Bool.eq_false_iff.mpr hc))
  | delete n =>
    cases hf : m.items.find? (fun p => p.1 == n) with
    | none => simpa [SimpleFileMap.step, SimpleFileMap.delete, hf] using h
    | some p =>
      simp only [SimpleFileMap.step, SimpleFileMap.delete, hf]
      exact List.Nodup.sublist (List.Sublist.map _ (List.filter_sublist _)) h

theorem lru_names_get (m : LRUFileMap) (n : String) :
    ((m.get n).2).items.map LRUItem.name = m.items.map LRUItem.name := by
  cases hf : m.items.find? (fun e => e.name == n) with
  | none => simp [LRUFileMap.get, hf]
  | some e =>
    simp only [LRUFileMap.get, hf, List.map_map]
    congr 1
    funext e'
    by_cases hx : (e'.name == n) = true <;> simp [Function.comp, hx]

theorem lru_step_nodup (m : LRUFileMap) (op : LRUOp)
    (h : (m.items.map LRUItem.name).Nodup) :
    ((m.step op).items.map LRUItem.name).Nodup := by
  cases op with
  | get n =>
    show (((m.get n).2).items.map LRUItem.name).Nodup
    rw [lru_names_get]
    exact h
  | add n e =>
    by_cases hc : m.containsName n
    · simpa [LRUFileMap.step, LRUFileMap.add, hc] using h
    · simp only [LRUFileMap.step, LRUFileMap.add, hc, if_neg, Bool.false_eq_true,
        not_false_eq_true]
      have hn : n ∉ m.items.map LRUItem.name :=
        not_mem_name_of_containsName_false m n (Bool.eq_false_iff.mpr hc)
      by_cases hcap : m.capacity ≤ m.items.length
      · simp only [LRUFileMap.insertFresh, if_pos hcap]
        cases hp : pickLRU m.items with
        | none =>
          simp only [LRUFileMap.evictOne, hp]
          rw [List.map_append]
          exact nodup_append_singleton _ _ h hn
        | some v =>
          rw [evictOne_of_pick _ v hp]
          simp only [List.map_append]
          refine nodup_append_singleton _ _ ?_ ?_
          · exact List.Nodup.sublist (List.Sublist.map _ (List.filter_sublist _)) h
          · intro hmem
            obtain ⟨x, hx, hxn⟩ := List.mem_map.mp hmem
            exact hn (List.mem_map.mpr ⟨x, (List.mem_filter.mp hx).1, hxn⟩)
      · simp only [LRUFileMap.insertFresh, if_neg hcap]
        rw [List.map_append]
        exact nodup_append_singleton _ _ h hn
  | delete n =>
    cases hf : m.items.find? (fun e => e.name == n) with
    | none => simpa [LRUFileMap.step, LRUFileMap.delete, hf] using h
    | some e =>
      simp only [LRUFileMap.step, LRUFileMap.delete, hf]
      exact List.Nodup.sublist (List.Sublist.map _ (List.filter_sublist _)) h
  | tick d => exact h

theorem simple_runOps_nodup (ops : List SOp) (m : SimpleFileMap)
    (h : (m.items.map Prod.fst).Nodup) :
    (((m.runOps ops)).items.map Prod.fst).Nodup := by
  induction ops generalizing m with
  | nil => exact h
  | cons op t ih => exact ih (m.step op) (simple_step_nodup m op h)

theorem lru_runOps_nodup (ops : List LRUOp) (m : LRUFileMap)
    (h : (m.items.map LRUItem.name).Nodup) :
    (((m.runOps ops)).items.map LRUItem.name).Nodup := by
  induction ops generalizing m with
  | nil => exact h
  | cons op t ih => exact ih (m.step op) (lru_step_nodup m op h)

/-- C5: on either file map, an Add of a name already present fails with
AlreadyExists and leaves the map — and so the existing entry — unaltered,
and every map reachable from a fresh one holds at most one entry per file
name. -/
theorem add_existing_fails_and_names_unique :
    (∀ (m : SimpleFileMap) (name : String) (ent : Nat),
        m.contains name = true → m.add name ent = .error .AlreadyExists) ∧
    (∀ (m : SimpleFileMap) (name : String) (ent : Nat),
        m.contains name = true → m.step (.add name ent) = m) ∧
    (∀ (lm : LRUFileMap) (name : String) (ent : Nat),
        lm.containsName name = true → lm.add name ent = .error .AlreadyExists) ∧
    (∀ (lm : LRUFileMap) (name : String) (ent : Nat),
        lm.containsName name = true → lm.step (.add name ent) = lm) ∧
    (∀ ops : List SOp,
        (((SimpleFileMap.empty).runOps ops).items.map Prod.fst).Nodup) ∧
    (∀ (cap t : Nat) (m0 : LRUFileMap) (ops : List LRUOp),
        LRUFileMap.new cap t = some m0 →
        (((m0.runOps ops)).items.map LRUItem.name).Nodup) := by
  refine ⟨?_, ?_, ?_, ?_, ?_, ?_⟩
  · intro m name ent hc
    simp [SimpleFileMap.add, hc]
  · intro m name ent hc
    simp [SimpleFileMap.step, SimpleFileMap.add, hc]
  · intro lm name ent hc
    simp [LRUFileMap.add, hc]
  · intro lm name ent hc
    simp [LRUFileMap.step, LRUFileMap.add, hc]
  · intro ops
    exact simple_runOps_nodup ops SimpleFileMap.empty (by simp [SimpleFileMap.empty])
  · intro cap t m0 ops h
    by_cases hcap0 : cap = 0
    · simp [LRUFileMap.new, hcap0] at h
    · have h' : some (⟨cap, t, 0, [], []⟩ : LRUFileMap) = some m0 := by
        simpa [LRUFileMap.new, hcap0] using h
      have hm : m0 = ⟨cap, t, 0, [], []⟩ := (Option.some.inj h').symm
      subst hm
      exact lru_runOps_nodup ops _ (by simp)

theorem add_existing_fails_and_names_unique_witness :
    ((⟨[("x", 7)]⟩ : SimpleFileMap).add "x" 9 = .error .AlreadyExists) ∧
    (SimpleFileMap.step ⟨[("x", 7)]⟩ (.add "x" 9) = ⟨[("x", 7)]⟩) ∧
    (lruWitMap.add "a" 9 = .error .AlreadyExists) ∧
    (lruWitMap.step (.add "a" 9) = lruWitMap) ∧
    (((SimpleFileMap.empty.runOps [.add "x" 7, .add "x" 8]).items.map Prod.fst).Nodup) ∧
    (((lruStart.runOps lruScenarioOps).items.map LRUItem.name).Nodup) :=
  ⟨add_existing_fails_and_names_unique.1 ⟨[("x", 7)]⟩ "x" 9 (by decide),
   add_existing_fails_and_names_unique.2.1 ⟨[("x", 7)]⟩ "x" 9 (by decide),
   add_existing_fails_and_names_unique.2.2.1 lruWitMap "a" 9 (by decide),
   add_existing_fails_and_names_unique.2.2.2.1 lruWitMap "a" 9 (by decide),
   add_existing_fails_and_names_unique.2.2.2.2.1 [.add "x" 7, .add "x" 8],
   add_existing_fails_and_names_unique.2.2.2.2.2 2 0 lruStart lruScenarioOps rfl⟩

/-! ### FileStore: move, delete, create and the CAS variant -/

theorem find?_map_pres {β : Type} (f : β → β) (p : β → Bool) (l : List β)
    (hp : ∀ x, p (f x) = p x) : (l.map f).find? p = (l.find? p).map f := by
  induction l with
  | nil => rfl
  | cons a t ih =>
    by_cases hpa : p a = true
    · rw [List.map_cons, List.find?_cons_of_pos _ (by rw [hp]; exact hpa),
        List.find?_cons_of_pos _ hpa]
      rfl
    · rw [List.map_cons, List.find?_cons_of_neg _ (by rw [hp]; simpa using hpa),
        List.find?_cons_of_neg _ (by simpa using hpa), ih]

theorem any_filter_not {β : Type} (p : β → Bool) (l : List β) :
    (l.filter (fun x => !(p x))).any p = false := by
  rw [List.any_eq_false]
  intro x hx
  have h2 := (List.mem_filter.mp hx).2
  simp only [Bool.not_eq_eq_eq_not, Bool.not_true] at h2
  simp [h2]

/-- C3: a successful MoveFile from the entry's current state A to B leaves
the backing file absent under A's directory, present under B's directory,
and GetState subsequently reports B. -/
theorem moveFile_moves (st st' : FileStore) (name A B : String) (e : StoreEntry)
    (hfind : st.findEntry name = some e) (hA : e.state = A)
    (hok : st.moveFile name B = .ok st') :
    st'.fsHas A name = false ∧ st'.fsHas B name = true ∧ st'.getState name = .ok B := by
  subst hA
  by_cases h1 : st.fsHas e.state name
  · by_cases h2 : st.fsHas B name
    · simp [FileStore.moveFile, hfind, h1, h2] at hok
    · have hAB : e.state ≠ B := by
        intro hh
        rw [hh] at h1
        rw [h1] at h2
        exact h2 rfl
      have hmv : st.moveFile name B = .ok
          ⟨st.entries.map (fun x => if x.name == name then { x with state := B } else x),
           st.fsFiles.filter (fun f => !(f.1 == e.state && f.2.1 == name)) ++
             [(B, name, e.size)]⟩ := by
        simp [FileStore.moveFile, hfind, h1, h2]
      rw [hmv] at hok
      injection hok with hok
      subst hok
      refine ⟨?_, ?_, ?_⟩
      · show ((st.fsFiles.filter _ ++ _).any _) = false
        rw [List.any_append, Bool.or_eq_false_iff]
        constructor
        · exact any_filter_not (fun f => f.1 == e.state && f.2.1 == name) st.fsFiles
        · simp [beq_eq_false_iff_ne.mpr (fun hh : B = e.state => hAB hh.symm)]
      · show ((st.fsFiles.filter _ ++ _).any _) = true
        rw [List.any_append, Bool.or_eq_true]
        exact Or.inr (by simp)
      · have hname : (e.name == name) = true :=
          List.find?_some (p := fun x : StoreEntry => x.name == name) hfind
        have hfind' : st.entries.find? (fun x => x.name == name) = some e := hfind
        have hmapfind : (st.entries.map
            (fun x => if x.name == name then { x with state := B } else x)).find?
              (fun x => x.name == name) = some { e with state := B } := by
          rw [find?_map_pres _ _ _ (fun x => by
            by_cases hx : (x.name == name) = true <;> simp [hx]), hfind']
          show some (if (e.name == name) = true then { e with state := B } else e) = _
          rw [if_pos hname]
        show FileStore.getState _ name = .ok B
        simp only [FileStore.getState, FileStore.findEntry, hmapfind]
  · simp [FileStore.moveFile, hfind, h1] at hok

/-- Witness for C3 at a one-file store moved from s1 to s2. -/
theorem moveFile_moves_witness :
    (⟨[⟨"f", "s2", 5, 0⟩], [("s2", "f", 5)]⟩ : FileStore).fsHas "s1" "f" = false ∧
      (⟨[⟨"f", "s2", 5, 0⟩], [("s2", "f", 5)]⟩ : FileStore).fsHas "s2" "f" = true ∧
      (⟨[⟨"f", "s2", 5, 0⟩], [("s2", "f", 5)]⟩ : FileStore).getState "f" = .ok "s2" :=
  moveFile_moves ⟨[⟨"f", "s1", 5, 0⟩], [("s1", "f", 5)]⟩
    ⟨[⟨"f", "s2", 5, 0⟩], [("s2", "f", 5)]⟩ "f" "s1" "s2" ⟨"f", "s1", 5, 0⟩
    (by decide) rfl rfl

theorem closeN_findEntry (st : FileStore) (name : String) (e : StoreEntry) (k : Nat)
    (hf : st.findEntry name = some e) :
    (st.closeN name k).findEntry name =
      some { e with openHandles := e.openHandles - k } := by
  induction k generalizing st e with
  | zero => simpa using hf
  | succ k ih =>
    have hname : (e.name == name) = true :=
      List.find?_some (p := fun x : StoreEntry => x.name == name) hf
    have hf2 : st.entries.find? (fun x => x.name == name) = some e := hf
    have hc : (st.closeFile name).findEntry name =
        some { e with openHandles := e.openHandles - 1 } := by
      show (st.entries.map (fun x =>
          if x.name == name then { x with openHandles := x.openHandles - 1 } else x)).find?
        (fun x => x.name == name) = _
      rw [find?_map_pres _ _ _ (fun x => by
        by_cases hx : (x.name == name) = true <;> simp [hx]), hf2]
      show some (if (e.name == name) = true
          then { e with openHandles := e.openHandles - 1 } else e) = _
      rw [if_pos hname]
    have hrec := ih (st.closeFile name) { e with openHandles := e.openHandles - 1 } hc
    show ((st.closeFile name).closeN name k).findEntry name = _
    rw [hrec]
    have harith : e.openHandles - 1 - k = e.openHandles - (k + 1) := by omega
    simp [harith]

/-- C6: DeleteFile fails with InUse while the open-handle count is positive
— producing no new store, so the entry and backing file remain — and once
every open handle on the name has been closed, DeleteFile succeeds and the
name is no longer tracked. -/
theorem deleteFile_requires_handles_closed (st : FileStore) (name : String)
    (e : StoreEntry) (hfind : st.findEntry name = some e) :
    (0 < e.openHandles → st.deleteFile name = .error .InUse) ∧
    (∃ st', (st.closeN name e.openHandles).deleteFile name = .ok st' ∧
      st'.tracked name = false) := by
  constructor
  · intro h
    simp [FileStore.deleteFile, hfind, h]
  · have hf' := closeN_findEntry st name e e.openHandles hfind
    have hz : e.openHandles - e.openHandles = 0 := Nat.sub_self _
    rw [hz] at hf'
    refine ⟨(⟨(st.closeN name e.openHandles).entries.filter (fun x => !(x.name == name)),
      (st.closeN name e.openHandles).fsFiles.filter
        (fun f => !(f.1 == e.state && f.2.1 == name))⟩ : FileStore), ?_, ?_⟩
    · simp [FileStore.deleteFile, hf']
    · exact any_filter_not (fun x : StoreEntry => x.name == name) _

/-- Witness for C6 at a store whose single file holds two open handles. -/
theorem deleteFile_requires_handles_closed_witness :
    ((⟨[⟨"f", "s1", 5, 2⟩], [("s1", "f", 5)]⟩ : FileStore).deleteFile "f" =
        .error .InUse) ∧
    (∃ st', ((⟨[⟨"f", "s1", 5, 2⟩], [("s1", "f", 5)]⟩ : FileStore).closeN "f" 2).deleteFile
        "f" = .ok st' ∧ st'.tracked "f" = false) := by
  have h := deleteFile_requires_handles_closed ⟨[⟨"f", "s1", 5, 2⟩], [("s1", "f", 5)]⟩
    "f" ⟨"f", "s1", 5, 2⟩ (by decide)
  exact ⟨h.1 (by decide), h.2⟩

/-- C8: CreateFile fails with AlreadyExists when the name is tracked in any
state, and a successful CreateFile of size S tracks the name and produces a
backing file in the target state's directory whose allocated length is
exactly S before any byte is written. -/
theorem createFile_allocates (st : FileStore) (name s : String) (size : Nat) :
    (st.tracked name = true → st.createFile name s size = .error .AlreadyExists) ∧
    (st.tracked name = false → st.fsHas s name = false →
      ∃ st', st.createFile name s size = .ok st' ∧ st'.tracked name = true ∧
        st'.fsHas s name = true ∧ st'.allocOf s name = some size) := by
  constructor
  · intro h
    simp [FileStore.createFile, h]
  · intro h hfs
    refine ⟨(⟨st.entries ++ [⟨name, s, size, 0⟩], st.fsFiles ++ [(s, name, size)]⟩ : FileStore),
      by simp [FileStore.createFile, h], ?_, ?_, ?_⟩
    · show (st.entries ++ [(⟨name, s, size, 0⟩ : StoreEntry)]).any
        (fun x => x.name == name) = true
      rw [List.any_append, Bool.or_eq_true]
      exact Or.inr (by simp)
    · show (st.fsFiles ++ [(s, name, size)]).any
        (fun f => f.1 == s && f.2.1 == name) = true
      rw [List.any_append, Bool.or_eq_true]
      exact Or.inr (by simp)
    · show ((st.fsFiles ++ [(s, name, size)]).find?
        (fun f => f.1 == s && f.2.1 == name)).map (fun f => f.2.2) = some size
      rw [find?_append_none _ _ _ (find?_eq_none_of_any_false _ _ hfs)]
      simp [List.find?]

/-- Witness for C8: creation refused on a tracked name, and allocation of a
5-byte file from the empty store. -/
theorem createFile_allocates_witness :
    ((⟨[⟨"f", "s1", 5, 0⟩], [("s1", "f", 5)]⟩ : FileStore).createFile "f" "s2" 9 =
        .error .AlreadyExists) ∧
    (∃ st', FileStore.empty.createFile "f" "s1" 5 = .ok st' ∧
      st'.tracked "f" = true ∧ st'.fsHas "s1" "f" = true ∧
      st'.allocOf "s1" "f" = some 5) :=
  ⟨(createFile_allocates ⟨[⟨"f", "s1", 5, 0⟩], [("s1", "f", 5)]⟩ "f" "s2" 9).1 (by decide),
   (createFile_allocates FileStore.empty "f" "s1" 5).2 (by decide) (by decide)⟩

/-- C7: the CAS store's CreateFile fails with IntegrityMismatch when the
supplied name differs from the content hash; with the matching name it
succeeds, and a second identical CreateFile fails with AlreadyExists —
producing no new store, hence neither corrupting nor duplicating the single
entry for that name. -/
theorem casCreateFile_integrity (st : FileStore) (name s : String) (content : List Nat) :
    (name ≠ hashContent content →
        st.casCreateFile name s content = .error .IntegrityMismatch) ∧
    (name = hashContent content → st.tracked name = false →
        ∃ st', st.casCreateFile name s content = .ok st' ∧ st'.tracked name = true ∧
          st'.casCreateFile name s content = .error .AlreadyExists ∧
          (st'.entries.filter (fun x => x.name == name)).length = 1) := by
  constructor
  · intro h
    simp [FileStore.casCreateFile, h]
  · intro hn h
    have honeAll : ∀ u : FileStore,
        u.casCreateFile name s content = u.createFile name s content.length := by
      intro u
      show (if name = hashContent content then u.createFile name s content.length
        else .error .IntegrityMismatch) = u.createFile name s content.length
      rw [if_pos hn]
    refine ⟨(⟨st.entries ++ [⟨name, s, content.length, 0⟩],
        st.fsFiles ++ [(s, name, content.length)]⟩ : FileStore), ?_, ?_, ?_, ?_⟩
    · rw [honeAll]
      simp [FileStore.createFile, h]
    · show (st.entries ++ [(⟨name, s, content.length, 0⟩ : StoreEntry)]).any
        (fun x => x.name == name) = true
      rw [List.any_append, Bool.or_eq_true]
      exact Or.inr (by simp)
    · rw [honeAll]
      simp [FileStore.createFile, FileStore.tracked, List.any_append]
    · show ((st.entries ++ [(⟨name, s, content.length, 0⟩ : StoreEntry)]).filter
        (fun x => x.name == name)).length = 1
      rw [List.filter_append]
      have h0 : st.entries.filter (fun x => x.name == name) = [] :=
        List.filter_eq_nil_iff.mpr (List.any_eq_false.mp h)
      rw [h0]
      simp

/-- Witness for C7: a mismatched name is refused on the empty store; the
matching hash name is created once and refused the second time. -/
theorem casCreateFile_integrity_witness :
    (FileStore.empty.casCreateFile "x" "s1" [] = .error .IntegrityMismatch) ∧
    (∃ st', FileStore.empty.casCreateFile (hashContent [1, 2]) "s1" [1, 2] = .ok st' ∧
      st'.tracked (hashContent [1, 2]) = true ∧
      st'.casCreateFile (hashContent [1, 2]) "s1" [1, 2] = .error .AlreadyExists ∧
      (st'.entries.filter (fun x => x.name == hashContent [1, 2])).length = 1) :=
  ⟨(casCreateFile_integrity FileStore.empty "x" "s1" []).1 (by decide),
   (casCreateFile_integrity FileStore.empty (hashContent [1, 2]) "s1" [1, 2]).2 rfl rfl⟩

end StorageBase
